import Mathlib

/-
  Verification of the PerceptronTagger in src/text/taggers.py.

  The development shallowly embeds the tagger: strings are Lean `String`,
  Python dicts are association lists (first match wins on lookup; in-place
  value replacement on assignment to an existing key, append otherwise),
  numeric weights are rationals, and fallible operations (string/list
  indexing, attribute access) return `Except PyErr`.

  The `Perceptron` class is imported by taggers.py from a `_perceptron`
  module that is not part of the sources; its operations are modelled from
  the specification of the averaged perceptron (spec section 4.4) and are
  marked as such in their doc comments.
-/

set_option autoImplicit false

namespace Taggers

/-- Python runtime errors that the embedded code can raise. -/
inductive PyErr where
  | indexError
  | attributeError
  deriving DecidableEq, Repr

instance instDecEqExcept {ε α : Type} [DecidableEq ε] [DecidableEq α] :
    DecidableEq (Except ε α) := fun x y =>
  match x, y with
  | .error e, .error f => decidable_of_iff (e = f) (by simp)
  | .error _, .ok _ => isFalse (by simp)
  | .ok _, .error _ => isFalse (by simp)
  | .ok a, .ok b => decidable_of_iff (a = b) (by simp)

/-- First-match lookup in an association list, as in a Python dict
(keys are unique in every dict the code builds, so first match is the match). -/
def lookupAssoc {α β : Type} [DecidableEq α] : List (α × β) → α → Option β
  | [], _ => none
  | (k, v) :: rest, a => if a = k then some v else lookupAssoc rest a

/-- Python dict assignment `d[k] = v`: replace the value of the first entry
holding `k`, or append a new entry when `k` is absent. -/
def setAssoc {α β : Type} [DecidableEq α] : List (α × β) → α → β → List (α × β)
  | [], k, v => [(k, v)]
  | (k1, v1) :: rest, k, v => if k = k1 then (k, v) :: rest else (k1, v1) :: setAssoc rest k v

/-- Python list indexing `l[k]` with an `Int` index: negative indices count
from the back; out of range raises `IndexError`. -/
def pyListGetInt {α : Type} (l : List α) (k : Int) : Except PyErr α :=
  let j : Int := if k < 0 then k + l.length else k
  if h : 0 ≤ j ∧ j.toNat < l.length then .ok (l.get ⟨j.toNat, h.2⟩) else .error .indexError

/-- Python string indexing `s[k]`. -/
def pyStrIndex (s : String) (k : Int) : Except PyErr Char :=
  pyListGetInt s.data k

/-- Python slice `s[-3:]`: the last three characters, or the whole string
when it is shorter than three characters. Never fails. -/
def last3 (s : String) : String :=
  ⟨s.data.drop (s.data.length - 3)⟩

/-- Python `str.isdigit()`: true iff the string is non-empty and every
character is a digit. -/
def pyIsdigit (s : String) : Bool :=
  !s.data.isEmpty && s.data.all Char.isDigit

/-- Helper for `pySplit`: scan the characters, `cur` holds the (reversed)
current word. -/
def pySplitAux : List Char → List Char → List String
  | cur, [] => if cur.isEmpty then [] else [⟨cur.reverse⟩]
  | cur, c :: rest =>
    if c.isWhitespace then
      if cur.isEmpty then pySplitAux [] rest
      else ⟨cur.reverse⟩ :: pySplitAux [] rest
    else pySplitAux (c :: cur) rest

/-- Python `str.split()` with no argument: split on runs of whitespace,
dropping empty pieces (so every returned word is non-empty). -/
def pySplit (s : String) : List String :=
  pySplitAux [] s.data

/-- Python `str.lower()`: lowercase character by character. -/
def pyLower (s : String) : String :=
  ⟨s.data.map Char.toLower⟩

/-- `PerceptronTagger._normalize` from src/text/taggers.py.  The first two
branches never index the word (`'-' in word` short-circuits the `word[0]`
test to non-empty words); the third branch evaluates `word[0]`, which
raises `IndexError` on the empty string. `cs` is `self.case_sensitive`. -/
def normalize (cs : Bool) (w : String) : Except PyErr String :=
  if w.data.contains '-' && (w.data.headD ' ' != '-') then .ok "!HYPHEN"
  else if pyIsdigit w && w.data.length == 4 then .ok "!YEAR"
  else
    match pyStrIndex w 0 with
    | .error e => .error e
    | .ok c0 =>
      if c0.isDigit then .ok "!DIGITS"
      else if !cs then .ok (pyLower w)
      else .ok w

/-- Normalization rules as the spec words them (section 4.1): first match
wins; rule 1 hyphen, rule 2 all-digits of length four, rule 3 leading
digit, rule 4 lowercase unless case-sensitive.  Stated for comparison with
the source function `normalize`. -/
def specNormalize (cs : Bool) (w : String) : String :=
  if w.data.contains '-' ∧ w.data.headD ' ' ≠ '-' then "!HYPHEN"
  else if (w.data.all Char.isDigit) ∧ w.data.length = 4 then "!YEAR"
  else if (w.data.headD ' ').isDigit then "!DIGITS"
  else if !cs then pyLower w
  else w

/-- An exact rational number, used for the numeric weights of the
perceptron.  It is kept as an explicit numerator/denominator pair (not
reduced; every operation below is exact fraction arithmetic, and
`PyNum.toRat` interprets the pair as the rational it denotes — the
correspondence lemmas are proved next to the operations).  Every value
the tagger constructs has a positive denominator. -/
structure PyNum where
  num : Int
  den : Int
  deriving DecidableEq, Repr

/-- The rational denoted by a `PyNum`. -/
def PyNum.toRat (a : PyNum) : ℚ := (a.num : ℚ) / (a.den : ℚ)

/-- The integer `n` as a `PyNum`. -/
def PyNum.ofInt (n : Int) : PyNum := ⟨n, 1⟩

/-- The natural number `n` as a `PyNum`. -/
def PyNum.ofNat (n : ℕ) : PyNum := ⟨(n : Int), 1⟩

def PyNum.add (a b : PyNum) : PyNum := ⟨a.num * b.den + b.num * a.den, a.den * b.den⟩

def PyNum.sub (a b : PyNum) : PyNum := ⟨a.num * b.den - b.num * a.den, a.den * b.den⟩

def PyNum.mul (a b : PyNum) : PyNum := ⟨a.num * b.num, a.den * b.den⟩

/-- Exact division, normalizing the sign so that a positive denominator
stays positive (undefined only for division by zero, which the tagger
never performs: the divisor is always the positive step count). -/
def PyNum.div (a b : PyNum) : PyNum :=
  if b.num < 0 then ⟨-(a.num * b.den), -(a.den * b.num)⟩ else ⟨a.num * b.den, a.den * b.num⟩

/-- Strict comparison by cross-multiplication (correct whenever both
denominators are positive, which holds for every value the tagger
builds). -/
def PyNum.blt (a b : PyNum) : Bool := a.num * b.den < b.num * a.den

/-- A key of the Python dict `self.model.weights`.  The perceptron stores
feature keys, which are tuples of strings; `_make_tagdict` additionally
assigns `self.model.weights[tag] = \x7b\x7d` with a plain string key, so the key
type must admit both shapes (they never compare equal, as in Python). -/
inductive PyKey where
  | pyStr (s : String)
  | pyTuple (k : List String)
  deriving DecidableEq, Repr

/-- A feature key `(template-name, argument...)` is modelled as the list
`name :: arguments`. -/
abbrev FeatKey := List String

/-- `feature key -> tag -> accumulated weight`. -/
abbrev Weights := List (PyKey × List (String × PyNum))

/-- A labeled sentence: the word sequence paired with the tag sequence. -/
abbrev Sentence := List String × List String

/-- The mutable state of a `PerceptronTagger` together with the state of
its `Perceptron` model (`weights`, `totals`, `tstamps`, `steps`,
`classes`); the tagger aliases the model's class set, so one `classes`
field represents both.  `uppers`/`titles` are the case-profile sets read
from `en-case.txt` at construction (an external resource, so they are
plain state here). -/
structure TaggerState where
  weights : Weights
  totals : List ((PyKey × String) × PyNum)
  tstamps : List ((PyKey × String) × ℕ)
  steps : ℕ
  tagdict : List (String × String)
  classes : List String
  uppers : List String
  titles : List String
  caseSensitive : Bool
  deriving DecidableEq, Repr

/-- A freshly constructed tagger (empty model, empty tag dictionary,
`case_sensitive = False`), with the case-profile sets as parameters. -/
def initState (uppers titles : List String) : TaggerState :=
  { weights := [], totals := [], tstamps := [], steps := 0, tagdict := [],
    classes := [], uppers := uppers, titles := titles, caseSensitive := false }

/-- The sentinel padding `START` from taggers.py. -/
def START : List String := ["-START-", "-START2-"]

/-- The sentinel padding `END` from taggers.py. -/
def END : List String := ["-END-", "-END2-"]

/-- `PerceptronTagger._get_features`: the feature templates in source
order.  Membership in the case-profile sets is tested on `context[i]`
(the normalized word), while the suffix and first-character features use
the raw `word`; `word[0]` raises on the empty string, and the five
context reads use Python list indexing. -/
def getFeatures (uppers titles : List String) (i : Int) (word : String)
    (context : List String) (prev prev2 : String) : Except PyErr (List FeatKey) :=
  match pyStrIndex word 0 with
  | .error e => .error e
  | .ok w0 =>
    match pyListGetInt context i with
    | .error e => .error e
    | .ok ci =>
      match pyListGetInt context (i - 1) with
      | .error e => .error e
      | .ok cm1 =>
        match pyListGetInt context (i - 2) with
        | .error e => .error e
        | .ok cm2 =>
          match pyListGetInt context (i + 1) with
          | .error e => .error e
          | .ok cp1 =>
            match pyListGetInt context (i + 2) with
            | .error e => .error e
            | .ok cp2 =>
              .ok ([["prior"],
                    ["curr suffix", last3 word],
                    ["curr pref1", String.mk [w0]],
                    ["prev tag", prev],
                    ["2prev tag", prev2],
                    ["prev tag+2prev tag", prev, prev2],
                    ["curr w", ci],
                    ["prev tag+curr word", prev, ci],
                    ["prev w", cm1],
                    ["prev suff", last3 cm1],
                    ["2prev w", cm2],
                    ["next w", cp1],
                    ["next suff", last3 cp1],
                    ["2next w", cp2]]
                ++ (if uppers.contains ci then [["upper"], ["upper+prev", prev]] else [])
                ++ (if titles.contains ci then
                      [["title"], ["title+suffix", last3 word], ["title+prev", prev]]
                    else []))

/-- Modelled from the spec: the weight `weight(key, tag)` of the averaged
perceptron, defaulting to 0 when the feature key or the tag is unseen
(spec section 4.4). -/
def weightOf (w : Weights) (f : FeatKey) (c : String) : PyNum :=
  match lookupAssoc w (.pyTuple f) with
  | none => PyNum.ofInt 0
  | some m => (lookupAssoc m c).getD (PyNum.ofInt 0)

/-- Modelled from the spec: `score(features, tag)`, the sum of
`weight(key, tag)` over the feature occurrences (each feature key in the
list counts once; taggers.py never produces a duplicated key). -/
def score (w : Weights) (feats : List FeatKey) (c : String) : PyNum :=
  feats.foldl (fun a f => a.add (weightOf w f c)) (PyNum.ofInt 0)

/-- Modelled from the spec: `Perceptron.predict` from the missing
`_perceptron` module: the class with the maximum score.  The spec leaves
the tie-break open but demands a fixed deterministic rule; this model
keeps the first class (in insertion order of the class list) achieving
the maximum.  An empty class list yields `""` (never reached by trained
taggers). -/
def predict (st : TaggerState) (feats : List FeatKey) : String :=
  match st.classes.foldl (fun best c =>
      match best with
      | none => some (c, score st.weights feats c)
      | some bs =>
        if PyNum.blt bs.2 (score st.weights feats c) then some (c, score st.weights feats c)
        else some bs) none with
  | some bs => bs.1
  | none => ""

/-- Modelled from the spec: one averaging-accumulator update plus weight
change for a single `(feature key, tag)` pair: first accumulate
`(current_step - last_change_step) * old_weight`, record the change step,
then move the stored weight by `d` (spec section 4.4). -/
def updFeat (st : TaggerState) (c : String) (f : FeatKey) (d : PyNum) : TaggerState :=
  let key : PyKey × String := (.pyTuple f, c)
  let w := weightOf st.weights f c
  let total := ((lookupAssoc st.totals key).getD (PyNum.ofInt 0)).add
    (((PyNum.ofNat st.steps).sub (PyNum.ofNat ((lookupAssoc st.tstamps key).getD 0))).mul w)
  { st with
    totals := setAssoc st.totals key total,
    tstamps := setAssoc st.tstamps key st.steps,
    weights := setAssoc st.weights (.pyTuple f)
      (setAssoc ((lookupAssoc st.weights (.pyTuple f)).getD []) c (w.add d)) }

/-- Modelled from the spec: `Perceptron.update(gold, guess, features)`.
The global step counter advances once per call (one call per token that
reaches the model); when gold and guess agree the weights are untouched,
otherwise every feature key moves one unit toward gold and one unit away
from the guess. -/
def update (st : TaggerState) (truth guess : String) (feats : List FeatKey) : TaggerState :=
  let st1 := { st with steps := st.steps + 1 }
  if truth = guess then st1
  else feats.foldl
    (fun s f => updFeat (updFeat s truth f (PyNum.ofInt 1)) guess f (PyNum.ofInt (-1))) st1

/-- Modelled from the spec: `Perceptron.average_weights()`: every stored
`(feature key, tag)` weight is replaced by its time-weighted average, the
accumulator finalized up to the final step count (spec section 4.4).
Entries written by `_make_tagdict` under plain-string keys have empty
inner maps, so they are mapped to themselves. -/
def averageWeights (st : TaggerState) : TaggerState :=
  { st with weights := st.weights.map (fun e =>
      (e.1, e.2.map (fun p =>
        let key := (e.1, p.1)
        let total := ((lookupAssoc st.totals key).getD (PyNum.ofInt 0)).add
          (((PyNum.ofNat st.steps).sub (PyNum.ofNat ((lookupAssoc st.tstamps key).getD 0))).mul p.2)
        (p.1, total.div (PyNum.ofNat st.steps))))) }

/-- The truthiness test `tag = self.tagdict.get(word); if not tag:` — the
dictionary answer is used only when present and non-empty (the empty
string is falsy in Python). -/
def truthyGet (td : List (String × String)) (w : String) : Option String :=
  match lookupAssoc td w with
  | some t => if t = "" then none else some t
  | none => none

/-- The list comprehension `[self._normalize(w) for w in words]`:
normalize each word in order, propagating the first error. -/
def normalizeWords (cs : Bool) : List String → Except PyErr (List String)
  | [] => .ok []
  | w :: ws =>
    match normalize cs w with
    | .error e => .error e
    | .ok n =>
      match normalizeWords cs ws with
      | .error e => .error e
      | .ok ns => .ok (n :: ns)

/-- The word loop of `PerceptronTagger.tag`: for each word, take the
(truthy) tag-dictionary answer or else extract features at context index
`i + 2` and predict; thread `prev2 := prev; prev := tag`.  Returns the
assigned tags in order. -/
def tagLoop (st : TaggerState) (context : List String) (prev prev2 : String)
    (i : ℕ) : List String → Except PyErr (List String)
  | [] => .ok []
  | w :: ws =>
    match truthyGet st.tagdict w with
    | some t =>
      match tagLoop st context t prev (i + 1) ws with
      | .error e => .error e
      | .ok rest => .ok (t :: rest)
    | none =>
      match getFeatures st.uppers st.titles ((i : Int) + 2) w context prev prev2 with
      | .error e => .error e
      | .ok feats =>
        let t := predict st feats
        match tagLoop st context t prev (i + 1) ws with
        | .error e => .error e
        | .ok rest => .ok (t :: rest)

/-- The body of `PerceptronTagger.tag` after the words are available:
build the padded normalized context, run the word loop from the start
sentinels, and zip words with the assigned tags. -/
def tagWords (st : TaggerState) (words : List String) : Except PyErr (List (String × String)) :=
  match normalizeWords st.caseSensitive words with
  | .error e => .error e
  | .ok normed =>
    match tagLoop st (START ++ normed ++ END) "-START-" "-START2-" 0 words with
    | .error e => .error e
    | .ok tags => .ok (words.zip tags)

/-- A Python value passed as the `sentence` argument of `tag`: either a
string or a list of strings (the argument is dynamically typed). -/
inductive PySeq where
  | str (s : String)
  | list (ws : List String)
  deriving DecidableEq, Repr

/-- `PerceptronTagger.tag(sentence, tokenize=False)`: the code runs
`sentence.split()`, so a string is split on whitespace while a list of
words raises `AttributeError` (lists have no `split` method).  The
`tokenize=True` branch delegates to the external `nltk.word_tokenize`
and is out of scope. -/
def tag (st : TaggerState) (sentence : PySeq) : Except PyErr (List (String × String)) :=
  match sentence with
  | .str s => tagWords st (pySplit s)
  | .list _ => .error .attributeError

/-- `counts[word][tag] += 1` on the nested defaultdicts of
`_make_tagdict`. -/
def bump (counts : List (String × List (String × ℕ))) (w t : String) :
    List (String × List (String × ℕ)) :=
  let tf := (lookupAssoc counts w).getD []
  setAssoc counts w (setAssoc tf t ((lookupAssoc tf t).getD 0 + 1))

/-- The inner loop of the counting pass: bump once per `(word, tag)` pair
of one zipped sentence. -/
def bumpList (counts : List (String × List (String × ℕ))) (l : List (String × String)) :
    List (String × List (String × ℕ)) :=
  l.foldl (fun c p => bump c p.1 p.2) counts

/-- The counting pass of `_make_tagdict`: for every sentence and every
`(word, tag)` pair of `zip(words, tags)`, bump `counts[word][tag]`. -/
def buildCounts (sents : List Sentence) : List (String × List (String × ℕ)) :=
  sents.foldl (fun c s => bumpList c (s.1.zip s.2)) []

/-- `self.classes.add(tag)`: Python set insertion, modelled as an
insertion-ordered list without duplicates. -/
def addClass (cs : List String) (t : String) : List String :=
  if cs.contains t then cs else cs ++ [t]

/-- The `self.classes.add(tag)` side of the `_make_tagdict` loop. -/
def classesOf (c0 : List String) (sents : List Sentence) : List String :=
  sents.foldl (fun c s => (s.1.zip s.2).foldl (fun c2 p => addClass c2 p.2) c) c0

/-- The `self.model.weights[tag] = \x7b\x7d` side of the `_make_tagdict` loop:
every gold tag is written as a top-level key of the weights dict with an
empty inner dict. -/
def tagWeightsInit (w0 : Weights) (sents : List Sentence) : Weights :=
  sents.foldl (fun w s => (s.1.zip s.2).foldl (fun w2 p => setAssoc w2 (.pyStr p.2) []) w) w0

/-- The per-word fold of the second `_make_tagdict` loop: running
incumbent tag, running mode, and running total `n`, updated as
`if freq >= mode: incumbent, mode := tag, freq` then `n += freq`. -/
def pickN (tf : List (String × ℕ)) : String × ℕ × ℕ :=
  tf.foldl (fun acc p =>
    if p.2 ≥ acc.2.1 then (p.1, p.2, acc.2.2 + p.2) else (acc.1, acc.2.1, acc.2.2 + p.2))
    ("", 0, 0)

/-- The second loop of `_make_tagdict`: for every word of the count table,
store `word -> incumbent` when `n >= 100` and `mode / n >= 0.99`.  The
ratio test is written cross-multiplied (`99 * n <= 100 * mode`), which is
equivalent since the short-circuit `and` evaluates it only when
`n >= 100 > 0`. -/
def tagdictEntries (td0 : List (String × String)) (counts : List (String × List (String × ℕ))) :
    List (String × String) :=
  counts.foldl (fun td e =>
    let r := pickN e.2
    if 100 ≤ r.2.2 ∧ 99 * r.2.2 ≤ 100 * r.2.1 then setAssoc td e.1 r.1
    else td) td0

/-- `PerceptronTagger._make_tagdict`: the single source loop updates the
count table, the class set and the tag-keyed weights entries
independently, so it is modelled as three folds over the same
`zip(words, tags)` traversal, followed by the threshold loop. -/
def makeTagdict (st : TaggerState) (sents : List Sentence) : TaggerState :=
  { st with
    tagdict := tagdictEntries st.tagdict (buildCounts sents),
    weights := tagWeightsInit st.weights sents,
    classes := classesOf st.classes sents }

/-- The word loop of `PerceptronTagger.train` for one sentence: the
(truthy) tag-dictionary answer is used as guess without touching the
model; otherwise extract features, predict, and call
`update(tags[i], guess, feats)`; `prev2 := prev; prev := guess` either
way.  Returns the updated state and the final `(prev, prev2)`, which the
source does not reset between sentences.  The accuracy statistic
`c += guess == tags[i]` reads `tags[i]` for every token; the statistic
itself does not affect the state, but the index read can raise, so both
branches perform it. -/
def trainWordLoop (st : TaggerState) (context : List String) (tags : List String)
    (prev prev2 : String) (i : ℕ) : List String → Except PyErr (TaggerState × String × String)
  | [] => .ok (st, prev, prev2)
  | w :: ws =>
    match truthyGet st.tagdict w with
    | some g =>
      match pyListGetInt tags (i : Int) with
      | .error e => .error e
      | .ok _ => trainWordLoop st context tags g prev (i + 1) ws
    | none =>
      match getFeatures st.uppers st.titles ((i : Int) + 2) w context prev prev2 with
      | .error e => .error e
      | .ok feats =>
        let guess := predict st feats
        match pyListGetInt tags (i : Int) with
        | .error e => .error e
        | .ok gold => trainWordLoop (update st gold guess feats) context tags guess prev (i + 1) ws

/-- One pass of `PerceptronTagger.train` over the sentence list, threading
`(prev, prev2)` across sentence boundaries exactly as the source does. -/
def trainPass (st : TaggerState) (prev prev2 : String) :
    List Sentence → Except PyErr (TaggerState × String × String)
  | [] => .ok (st, prev, prev2)
  | (words, tags) :: rest =>
    match normalizeWords st.caseSensitive words with
    | .error e => .error e
    | .ok normed =>
      match trainWordLoop st (START ++ normed ++ END) tags prev prev2 0 words with
      | .error e => .error e
      | .ok (st1, p, p2) => trainPass st1 p p2 rest

/-- The epoch loop of `train`: run a pass, then reorder the sentence list
with the ambient shuffle source (the source calls the process-global
`random.shuffle`; the stream of reorderings it would produce is passed in
explicitly, indexed by the epoch number `k`). -/
def trainEpochs (st : TaggerState) (prev prev2 : String) (sents : List Sentence)
    (shuffle : ℕ → List Sentence → List Sentence) (k : ℕ) :
    ℕ → Except PyErr TaggerState
  | 0 => .ok st
  | n + 1 =>
    match trainPass st prev prev2 sents with
    | .error e => .error e
    | .ok (st1, p, p2) => trainEpochs st1 p p2 (shuffle k sents) shuffle (k + 1) n

/-- `PerceptronTagger.train(sentences, save_loc, nr_iter)`: build the tag
dictionary, set the model classes, initialize `prev, prev2 = START` once
(before the epoch loop, not per sentence), run the epochs, then average
the weights.  Progress printing and the pickle write are side effects
without influence on the state. -/
def train (st : TaggerState) (sents : List Sentence) (nrIter : ℕ)
    (shuffle : ℕ → List Sentence → List Sentence) : Except PyErr TaggerState :=
  let st1 := makeTagdict st sents
  match trainEpochs st1 "-START-" "-START2-" sents shuffle 0 nrIter with
  | .error e => .error e
  | .ok st2 => .ok (averageWeights st2)

/-- A value read back by `cPickle.load`: either a 3-tuple of the expected
shape, or any other pickled object (whose unpacking fails with a generic
error). The artifact layout carries no version field. -/
inductive PickleValue where
  | triple (w : Weights) (td : List (String × String)) (classes : List String)
  | other
  deriving DecidableEq, Repr

/-- Errors of `PerceptronTagger.load`: the only failure unpacking the
pickled value can produce is the generic one; no version-mismatch error
exists anywhere in the code. -/
inductive LoadError where
  | unpackError
  deriving DecidableEq, Repr

/-- The pickled artifact written at the end of `train`:
`(self.model.weights, self.tagdict, self.classes)`, nothing else. -/
def save (st : TaggerState) : PickleValue :=
  .triple st.weights st.tagdict st.classes

/-- `PerceptronTagger.load`: unpack the pickled triple into the tagger
(`model.classes = self.classes` aliases the same class list).  Any
well-shaped triple is accepted without inspection. -/
def load (st : TaggerState) (v : PickleValue) : Except LoadError TaggerState :=
  match v with
  | .triple w td c => .ok { st with weights := w, tagdict := td, classes := c }
  | .other => .error .unpackError

/-- The sum of the per-tag counts of one word's count table (the `n` of
`_make_tagdict`). -/
def sumSnd (tf : List (String × ℕ)) : ℕ := (tf.map Prod.snd).sum

/-- The count stored for `(w, t)` in the nested count table (0 when
absent). -/
def getCount (counts : List (String × List (String × ℕ))) (w t : String) : ℕ :=
  (lookupAssoc ((lookupAssoc counts w).getD []) t).getD 0

/-- The total stored for `w` in the nested count table (0 when absent). -/
def getTotal (counts : List (String × List (String × ℕ))) (w : String) : ℕ :=
  sumSnd ((lookupAssoc counts w).getD [])

/-- Spec-side: the number of occurrences of the pair `(w, t)` in the
zipped labeled corpus. -/
def corpusCount (S : List Sentence) (w t : String) : ℕ :=
  (S.map (fun s => (s.1.zip s.2).count (w, t))).sum

/-- Spec-side: the number of occurrences of the word `w` in the zipped
labeled corpus (its total occurrence count `n`). -/
def corpusTotal (S : List Sentence) (w : String) : ℕ :=
  (S.map (fun s => ((s.1.zip s.2).map Prod.fst).count w)).sum

/-- An ambient shuffle stream that leaves the sentence list unchanged
(one possible behavior of `random.shuffle`). -/
def idShuffle : ℕ → List Sentence → List Sentence := fun _ l => l

/-- An ambient shuffle stream that reverses the sentence list after every
epoch (another possible behavior of `random.shuffle`). -/
def revShuffle : ℕ → List Sentence → List Sentence := fun _ l => l.reverse

/-- The end-to-end training corpus of the spec: one sentence repeated 100
times. -/
def exampleCorpus : List Sentence :=
  List.replicate 100 (["The", "dog", "runs"], ["DET", "NOUN", "VERB"])

/-- A two-sentence corpus exhibiting the carry-over of the decoding
context across sentence boundaries during training. -/
def twoSentenceCorpus : List Sentence := [(["a"], ["X"]), (["b"], ["Y"])]

/-- A corpus whose training outcome depends on the sentence order in the
second epoch. -/
def orderSensitiveCorpus : List Sentence := [(["b"], ["X"]), (["a"], ["X"]), (["a"], ["Y"])]

/-- The feature keys touched by the single real perceptron update of the
first epoch over `orderSensitiveCorpus`. -/
def oscKeys : List PyKey :=
  [.pyTuple ["prior"], .pyTuple ["curr suffix", "a"], .pyTuple ["curr pref1", "a"],
   .pyTuple ["prev tag", "X"], .pyTuple ["2prev tag", "X"],
   .pyTuple ["prev tag+2prev tag", "X", "X"], .pyTuple ["curr w", "a"],
   .pyTuple ["prev tag+curr word", "X", "a"], .pyTuple ["prev w", "-START2-"],
   .pyTuple ["prev suff", "T2-"], .pyTuple ["2prev w", "-START-"],
   .pyTuple ["next w", "-END-"], .pyTuple ["next suff", "ND-"], .pyTuple ["2next w", "-END2-"]]

/-- The tagger state after the tag dictionary pass and the first training
epoch over `orderSensitiveCorpus` (checked below against `trainPass`);
an explicit intermediate state keeps the later evaluations tractable. -/
def oscMid : TaggerState :=
  { weights := [(.pyStr "X", []), (.pyStr "Y", [])]
      ++ oscKeys.map (fun k => (k, [("Y", ⟨1, 1⟩), ("X", ⟨-1, 1⟩)])),
    totals := oscKeys.flatMap (fun k => [((k, "Y"), ⟨0, 1⟩), ((k, "X"), ⟨0, 1⟩)]),
    tstamps := oscKeys.flatMap (fun k => [((k, "Y"), 3), ((k, "X"), 3)]),
    steps := 3,
    tagdict := [],
    classes := ["X", "Y"],
    uppers := [],
    titles := [],
    caseSensitive := false }

/-- A tagger whose tag dictionary maps `"a"` to `"DET"`. -/
def dictTagger : TaggerState :=
  { initState [] [] with tagdict := [("a", "DET")], classes := ["X"] }

/-- A pickled triple whose tag dictionary stores the empty string as the
tag of `"a"` (producible by `_make_tagdict` from a corpus whose gold tag
is the empty string), next to a model that knows the class `"X"`. -/
def emptyTagArtifact : PickleValue := .triple [] [("a", "")] ["X"]

/-- A pickled triple that no run of `train` in this code version would
produce (a junk weights key, a tag dictionary inconsistent with the
class set): `load` has no way to tell. -/
def staleArtifact : PickleValue := .triple [(.pyStr "JUNK", [])] [("dog", "VERB")] ["X"]

theorem pyStrIndex_cons (c : Char) (t : List Char) : pyStrIndex ⟨c :: t⟩ 0 = .ok c := by
  simp [pyStrIndex, pyListGetInt]

theorem PyNum.toRat_ofInt (n : Int) : (PyNum.ofInt n).toRat = (n : ℚ) := by
  simp [PyNum.ofInt, PyNum.toRat]

theorem PyNum.toRat_ofNat (n : ℕ) : (PyNum.ofNat n).toRat = (n : ℚ) := by
  simp [PyNum.ofNat, PyNum.toRat]

theorem PyNum.toRat_add (a b : PyNum) (ha : 0 < a.den) (hb : 0 < b.den) :
    (a.add b).toRat = a.toRat + b.toRat := by
  unfold PyNum.add PyNum.toRat
  have ha2 : (a.den : ℚ) ≠ 0 := Int.cast_ne_zero.mpr (by omega)
  have hb2 : (b.den : ℚ) ≠ 0 := Int.cast_ne_zero.mpr (by omega)
  push_cast
  field_simp

theorem PyNum.toRat_sub (a b : PyNum) (ha : 0 < a.den) (hb : 0 < b.den) :
    (a.sub b).toRat = a.toRat - b.toRat := by
  unfold PyNum.sub PyNum.toRat
  have ha2 : (a.den : ℚ) ≠ 0 := Int.cast_ne_zero.mpr (by omega)
  have hb2 : (b.den : ℚ) ≠ 0 := Int.cast_ne_zero.mpr (by omega)
  push_cast
  field_simp
  ring

theorem PyNum.toRat_mul (a b : PyNum) (ha : 0 < a.den) (hb : 0 < b.den) :
    (a.mul b).toRat = a.toRat * b.toRat := by
  unfold PyNum.mul PyNum.toRat
  have ha2 : (a.den : ℚ) ≠ 0 := Int.cast_ne_zero.mpr (by omega)
  have hb2 : (b.den : ℚ) ≠ 0 := Int.cast_ne_zero.mpr (by omega)
  push_cast
  field_simp

theorem PyNum.toRat_div (a b : PyNum) (ha : 0 < a.den) (hb : 0 < b.den) (hn : b.num ≠ 0) :
    (a.div b).toRat = a.toRat / b.toRat := by
  unfold PyNum.div PyNum.toRat
  have ha2 : (a.den : ℚ) ≠ 0 := Int.cast_ne_zero.mpr (by omega)
  have hb2 : (b.den : ℚ) ≠ 0 := Int.cast_ne_zero.mpr (by omega)
  have hn2 : (b.num : ℚ) ≠ 0 := Int.cast_ne_zero.mpr hn
  split_ifs with hneg <;> push_cast <;> field_simp

theorem PyNum.blt_iff (a b : PyNum) (ha : 0 < a.den) (hb : 0 < b.den) :
    PyNum.blt a b = true ↔ a.toRat < b.toRat := by
  unfold PyNum.blt PyNum.toRat
  rw [div_lt_div_iff₀ (by exact_mod_cast ha) (by exact_mod_cast hb)]
  simp only [decide_eq_true_eq]
  constructor
  · intro h
    exact_mod_cast h
  · intro h
    exact_mod_cast h

/-- Witness instantiation of the `PyNum` correspondence lemmas at
concrete fractions. -/
theorem PyNum_toRat_witness :
    (0 : Int) < (⟨1, 2⟩ : PyNum).den ∧ (0 : Int) < (⟨1, 3⟩ : PyNum).den
    ∧ ((⟨1, 2⟩ : PyNum).add ⟨1, 3⟩).toRat = (⟨1, 2⟩ : PyNum).toRat + (⟨1, 3⟩ : PyNum).toRat :=
  ⟨by norm_num, by norm_num,
    PyNum.toRat_add ⟨1, 2⟩ ⟨1, 3⟩ (by norm_num) (by norm_num)⟩

set_option maxRecDepth 100000

/-- C6: for every non-empty word, `_normalize` applies the spec rules in
order with first match winning (hyphen, four-digit year, leading digit,
lowercase unless case-sensitive), and the four spec examples hold. -/
theorem normalize_follows_spec_rules :
    (∀ (cs : Bool) (w : String), w ≠ "" → normalize cs w = .ok (specNormalize cs w))
    ∧ normalize false "well-known" = .ok "!HYPHEN"
    ∧ normalize false "1999" = .ok "!YEAR"
    ∧ normalize false "3rd" = .ok "!DIGITS"
    ∧ normalize false "Dog" = .ok "dog" := by
  refine ⟨?_, by decide, by decide, by decide, by decide⟩
  intro cs w h
  obtain ⟨l⟩ := w
  match l with
  | [] => exact absurd rfl h
  | c :: t =>
    simp only [normalize, specNormalize, pyIsdigit, pyStrIndex_cons]
    simp [List.isEmpty]
    all_goals split_ifs <;> rfl

/-- Witness for `normalize_follows_spec_rules` at the concrete word
`"Dog"`. -/
theorem normalize_follows_spec_rules_witness :
    ("Dog" : String) ≠ "" ∧ normalize false "Dog" = .ok (specNormalize false "Dog") :=
  ⟨by decide, normalize_follows_spec_rules.1 false "Dog" (by decide)⟩

/-- C1 (code bug): training does not reset `prev`/`prev2` to the start
sentinels at sentence boundaries: they are initialized once before the
epoch loop, so the first word of the second sentence is decoded with
`prev = "X"` (the guess made on the first sentence).  Concretely, the
misprediction on the word `"b"` of the second sentence stores the
feature key `("prev tag", "X")`, and no feature key
`("prev tag", "-START-")` is ever stored. -/
theorem train_context_carries_across_sentences :
    (train (initState [] []) twoSentenceCorpus 1 idShuffle).map
      (fun st => ((lookupAssoc st.weights (.pyTuple ["prev tag", "X"])).isSome,
                  (lookupAssoc st.weights (.pyTuple ["prev tag", "-START-"])).isSome))
      = .ok (true, false) := by decide

/-- C8 (code bug): `_make_tagdict` writes every gold tag as a top-level
key of `Model.weights` (with an empty inner dict): after building the
dictionary from the one-sentence corpus `[(["dog"], ["NOUN"])]`, the tag
`"NOUN"` — a member of the class set, not a feature key — is a top-level
weights key. -/
theorem make_tagdict_writes_tag_key_into_weights :
    lookupAssoc (makeTagdict (initState [] []) [(["dog"], ["NOUN"])]).weights (.pyStr "NOUN")
        = some []
    ∧ "NOUN" ∈ (makeTagdict (initState [] []) [(["dog"], ["NOUN"])]).classes := by
  refine ⟨by decide, ?_⟩
  decide

/-- C9 counterexample: the persisted artifact is the raw pickled triple
`(weights, tagdict, classes)` with no version field, and `load` accepts
any well-shaped triple silently — here a triple no run of this code
could have produced — while a wrong-shaped pickle fails with the one
generic unpack error; no distinct version-mismatch error exists. -/
theorem load_accepts_any_triple_silently :
    (load (initState [] []) staleArtifact).isOk = true
    ∧ load (initState [] []) .other = .error .unpackError
    ∧ save (initState [] []) = .triple [] [] [] := by decide

/-- C9 (amended): `load` restores any pickled `(weights, tagdict,
classes)` triple unconditionally into the tagger, and the only failure
mode is the generic unpack error on a wrong-shaped pickle. -/
theorem load_is_unversioned :
    (∀ (st : TaggerState) (w : Weights) (td : List (String × String)) (c : List String),
        load st (.triple w td c) = .ok { st with weights := w, tagdict := td, classes := c })
    ∧ (∀ st : TaggerState, load st .other = .error .unpackError) :=
  ⟨fun _ _ _ _ => rfl, fun _ => rfl⟩

/-- C2 counterexample: a word stored in the tag dictionary with the
empty-string tag (falsy in Python) is not given its dictionary tag: the
loaded tagger maps `"a"` to `""` in its dictionary, yet `tag` runs the
model and assigns `"X"`. -/
theorem tag_ignores_empty_string_dict_entry :
    (load (initState [] []) emptyTagArtifact).map (fun st => lookupAssoc st.tagdict "a")
      = .ok (some "")
    ∧ (load (initState [] []) emptyTagArtifact).map (fun st => tag st (.str "a"))
      = .ok (.ok [("a", "X")])
    ∧ ("X" : String) ≠ "" := by decide

/-- C3 counterexample: `tag` with `tokenize=False` calls
`sentence.split()`, so passing the token list `["The","dog","runs"]`
raises `AttributeError` (lists have no `split` method) even on the
trained tagger, instead of returning the tagged pairs. -/
theorem tag_token_list_raises_attribute_error :
    (train (initState [] []) exampleCorpus 5 idShuffle).map
      (fun st => tag st (.list ["The", "dog", "runs"]))
      = .ok (.error .attributeError) := by decide

/-- Stage check: the tag-dictionary pass and the first epoch over
`orderSensitiveCorpus` produce exactly the intermediate state `oscMid`,
with the carried context pair `("X", "X")`.  Both ambient shuffle
streams below share this first epoch, since shuffling happens after it. -/
theorem osc_epoch1 :
    trainPass (makeTagdict (initState [] []) orderSensitiveCorpus)
      "-START-" "-START2-" orderSensitiveCorpus = .ok (oscMid, "X", "X") := by decide

/-- Stage check: finishing training from `oscMid` with the second epoch
in the original sentence order, then tagging `"b"`, yields `"X"`. -/
theorem osc_id_tail :
    (trainPass oscMid "X" "X" orderSensitiveCorpus).map
      (fun r => tag (averageWeights r.1) (.str "b")) = .ok (.ok [("b", "X")]) := by decide

/-- Stage check: finishing training from `oscMid` with the second epoch
in reversed sentence order, then tagging `"b"`, yields `"Y"`. -/
theorem osc_rev_tail :
    (trainPass oscMid "X" "X" orderSensitiveCorpus.reverse).map
      (fun r => tag (averageWeights r.1) (.str "b")) = .ok (.ok [("b", "Y")]) := by decide

/-- Training over `orderSensitiveCorpus` for two epochs under the
identity ambient shuffle stream tags `"b"` as `"X"`. -/
theorem osc_id_run :
    (train (initState [] []) orderSensitiveCorpus 2 idShuffle).map
      (fun st => tag st (.str "b")) = .ok (.ok [("b", "X")]) := by
  have h2 := osc_id_tail
  simp only [train, show (2 : ℕ) = 1 + 1 from rfl, trainEpochs, osc_epoch1, idShuffle]
  cases hE : trainPass oscMid "X" "X" orderSensitiveCorpus with
  | error e => rw [hE] at h2; simp [Except.map] at h2
  | ok r =>
    rw [hE] at h2
    simp only [Except.map] at h2 ⊢
    exact h2

/-- Training over `orderSensitiveCorpus` for two epochs under the
reversing ambient shuffle stream tags `"b"` as `"Y"`. -/
theorem osc_rev_run :
    (train (initState [] []) orderSensitiveCorpus 2 revShuffle).map
      (fun st => tag st (.str "b")) = .ok (.ok [("b", "Y")]) := by
  have h2 := osc_rev_tail
  simp only [train, show (2 : ℕ) = 1 + 1 from rfl, trainEpochs, osc_epoch1, revShuffle]
  cases hE : trainPass oscMid "X" "X" orderSensitiveCorpus.reverse with
  | error e => rw [hE] at h2; simp [Except.map] at h2
  | ok r =>
    rw [hE] at h2
    simp only [Except.map] at h2 ⊢
    exact h2

/-- C7 counterexample: two runs of `train` followed by `tag` with
identical caller-supplied arguments (same sentences, same iteration
count; the API has no seed parameter) produce different tags under two
states of the ambient shuffle source, so no caller-injectable seed
determines the result. -/
theorem train_tags_differ_with_fixed_arguments :
    (train (initState [] []) orderSensitiveCorpus 2 idShuffle).map
        (fun st => tag st (.str "b"))
      ≠ (train (initState [] []) orderSensitiveCorpus 2 revShuffle).map
        (fun st => tag st (.str "b")) := by
  rw [osc_id_run, osc_rev_run]
  decide

/-- C7 (amended): the embedded `train` is a function of its arguments
and the ambient shuffle stream, so two runs agree whenever the ambient
stream agrees (determinism relative to the global random state); but the
shuffle genuinely reaches the result — the two stage runs above differ —
so fixing the caller-visible arguments alone does not fix the tags, and
the source exposes no seed parameter through which the caller could fix
the stream. -/
theorem train_deterministic_given_shuffle_stream :
    (∀ (st : TaggerState) (S : List Sentence) (n : ℕ)
        (sh1 sh2 : ℕ → List Sentence → List Sentence),
        sh1 = sh2 → train st S n sh1 = train st S n sh2)
    ∧ (trainPass oscMid "X" "X" orderSensitiveCorpus).map
        (fun r => tag (averageWeights r.1) (.str "b"))
      ≠ (trainPass oscMid "X" "X" orderSensitiveCorpus.reverse).map
        (fun r => tag (averageWeights r.1) (.str "b")) := by
  constructor
  · intro st S n sh1 sh2 h
    rw [h]
  · decide

/-- Witness for `train_deterministic_given_shuffle_stream` at a concrete
shuffle stream. -/
theorem train_deterministic_given_shuffle_stream_witness :
    train (initState [] []) orderSensitiveCorpus 2 idShuffle
      = train (initState [] []) orderSensitiveCorpus 2 idShuffle :=
  train_deterministic_given_shuffle_stream.1 (initState [] []) orderSensitiveCorpus 2
    idShuffle idShuffle rfl

/-- C4 counterexample: with the raw word `"NASA"` in the uppercase set,
its occurrence (normalized to `"nasa"` in the context) yields neither
the `upper` nor the `upper+prev_tag` feature, because the membership
test is performed on `context[i]`, not on the raw word. -/
theorem case_features_use_normalized_word_not_raw :
    (["NASA"] : List String).contains "NASA" = true
    ∧ normalize false "NASA" = .ok "nasa"
    ∧ (getFeatures ["NASA"] [] 2 "NASA" (START ++ ["nasa"] ++ END) "-START-" "-START2-").map
        (fun fs => (fs.contains ["upper"], fs.contains ["upper+prev", "-START-"]))
      = .ok (false, false) := by decide

/-- C4 (amended): the uppercase and titlecase membership tests of
`_get_features` are performed on `context[i]` — the normalized word —
while the `title+suffix` feature still uses the raw word's last three
characters: each of the five case features is present exactly when the
normalized word is in the corresponding set. -/
theorem case_features_follow_normalized_context :
    ∀ (U T : List String) (i : Int) (word : String) (context : List String)
      (prev prev2 : String) (fs : List FeatKey) (ci : String),
      getFeatures U T i word context prev prev2 = .ok fs →
      pyListGetInt context i = .ok ci →
      ((["upper"] ∈ fs ↔ ci ∈ U) ∧ (["upper+prev", prev] ∈ fs ↔ ci ∈ U)
        ∧ (["title"] ∈ fs ↔ ci ∈ T) ∧ (["title+suffix", last3 word] ∈ fs ↔ ci ∈ T)
        ∧ (["title+prev", prev] ∈ fs ↔ ci ∈ T)) := by
  intro U T i word context prev prev2 fs ci hok hci
  unfold getFeatures at hok
  cases h0 : pyStrIndex word 0 with
  | error e => rw [h0] at hok; exact absurd hok (by simp)
  | ok w0 =>
  rw [h0] at hok
  rw [hci] at hok
  cases h2 : pyListGetInt context (i - 1) with
  | error e => rw [h2] at hok; exact absurd hok (by simp)
  | ok cm1 =>
  rw [h2] at hok
  cases h3 : pyListGetInt context (i - 2) with
  | error e => rw [h3] at hok; exact absurd hok (by simp)
  | ok cm2 =>
  rw [h3] at hok
  cases h4 : pyListGetInt context (i + 1) with
  | error e => rw [h4] at hok; exact absurd hok (by simp)
  | ok cp1 =>
  rw [h4] at hok
  cases h5 : pyListGetInt context (i + 2) with
  | error e => rw [h5] at hok; exact absurd hok (by simp)
  | ok cp2 =>
  rw [h5] at hok
  injection hok with hok
  subst hok
  by_cases hU : U.contains ci <;> by_cases hT : T.contains ci <;>
    simp_all [List.mem_append, List.elem_iff]

/-- Witness for `case_features_follow_normalized_context` at the
concrete extraction where the uppercase set holds the normalized word
`"nasa"`. -/
theorem case_features_follow_normalized_context_witness :
    getFeatures ["nasa"] [] 2 "NASA" (START ++ ["nasa"] ++ END) "-START-" "-START2-"
      = .ok [["prior"], ["curr suffix", "ASA"], ["curr pref1", "N"],
             ["prev tag", "-START-"], ["2prev tag", "-START2-"],
             ["prev tag+2prev tag", "-START-", "-START2-"], ["curr w", "nasa"],
             ["prev tag+curr word", "-START-", "nasa"], ["prev w", "-START2-"],
             ["prev suff", "T2-"], ["2prev w", "-START-"], ["next w", "-END-"],
             ["next suff", "ND-"], ["2next w", "-END2-"], ["upper"],
             ["upper+prev", "-START-"]]
    ∧ pyListGetInt (START ++ ["nasa"] ++ END) 2 = .ok "nasa"
    ∧ ((["upper"] : FeatKey) ∈
        [["prior"], ["curr suffix", "ASA"], ["curr pref1", "N"],
         ["prev tag", "-START-"], ["2prev tag", "-START2-"],
         ["prev tag+2prev tag", "-START-", "-START2-"], ["curr w", "nasa"],
         ["prev tag+curr word", "-START-", "nasa"], ["prev w", "-START2-"],
         ["prev suff", "T2-"], ["2prev w", "-START-"], ["next w", "-END-"],
         ["next suff", "ND-"], ["2next w", "-END2-"], ["upper"],
         ["upper+prev", "-START-"]] ↔ ("nasa" : String) ∈ ["nasa"]) :=
  ⟨by decide, by decide,
    (case_features_follow_normalized_context ["nasa"] [] 2 "NASA"
      (START ++ ["nasa"] ++ END) "-START-" "-START2-" _ "nasa"
      (by decide) (by decide)).1⟩

theorem zip_get?_of {α β : Type} (l1 : List α) (l2 : List β) (n : ℕ) (x : α) (y : β)
    (h1 : l1.get? n = some x) (h2 : l2.get? n = some y) :
    (l1.zip l2).get? n = some (x, y) := by
  induction l1 generalizing l2 n with
  | nil => simp at h1
  | cons a t ih =>
    cases l2 with
    | nil => simp at h2
    | cons b t2 =>
      cases n with
      | zero =>
        simp only [List.get?] at h1 h2
        injection h1 with h1
        injection h2 with h2
        subst h1; subst h2
        rfl
      | succ m =>
        simp only [List.get?, List.zip_cons_cons] at h1 h2 ⊢
        exact ih t2 m h1 h2

/-- The word loop of `tag` assigns exactly one tag per word. -/
theorem tagLoop_length (st : TaggerState) (ctx : List String) :
    ∀ (ws : List String) (p p2 : String) (i : ℕ) (ts : List String),
      tagLoop st ctx p p2 i ws = .ok ts → ts.length = ws.length := by
  intro ws
  induction ws with
  | nil =>
    intro p p2 i ts h
    simp only [tagLoop] at h
    injection h with h
    subst h
    rfl
  | cons w ws ih =>
    intro p p2 i ts h
    simp only [tagLoop] at h
    split at h
    · split at h
      · exact absurd h (by simp)
      · injection h with h
        subst h
        simp only [List.length_cons]
        rename_i t hrec
        rw [ih _ _ _ _ hrec]
    · split at h
      · exact absurd h (by simp)
      · split at h
        · exact absurd h (by simp)
        · injection h with h
          subst h
          simp only [List.length_cons]
          rename_i hrec
          rw [ih _ _ _ _ hrec]

/-- The word loop of `tag` assigns the (truthy) dictionary tag at every
position holding a dictionary word. -/
theorem tagLoop_dict_hit (st : TaggerState) (ctx : List String) (w t : String)
    (hw : lookupAssoc st.tagdict w = some t) (ht : t ≠ "") :
    ∀ (ws : List String) (p p2 : String) (i : ℕ) (ts : List String),
      tagLoop st ctx p p2 i ws = .ok ts →
      ∀ k, ws.get? k = some w → ts.get? k = some t := by
  intro ws
  induction ws with
  | nil =>
    intro p p2 i ts h k hk
    simp at hk
  | cons w0 ws ih =>
    intro p p2 i ts h k hk
    have htruthy : truthyGet st.tagdict w = some t := by
      simp only [truthyGet, hw]
      rw [if_neg ht]
    cases k with
    | zero =>
      simp only [List.get?] at hk
      injection hk with hk
      subst hk
      simp only [tagLoop, htruthy] at h
      split at h
      · exact absurd h (by simp)
      · injection h with h
        subst h
        rfl
    | succ m =>
      simp only [List.get?] at hk
      simp only [tagLoop] at h
      split at h
      · split at h
        · exact absurd h (by simp)
        · injection h with h
          subst h
          simp only [List.get?]
          rename_i hrec
          exact ih _ _ _ _ hrec m hk
      · split at h
        · exact absurd h (by simp)
        · split at h
          · exact absurd h (by simp)
          · injection h with h
            subst h
            simp only [List.get?]
            rename_i hrec
            exact ih _ _ _ _ hrec m hk

/-- C2 (amended): every word stored in the tag dictionary with a
non-empty (truthy) tag is assigned exactly its dictionary tag at every
position where it occurs, regardless of the model weights. -/
theorem tagdict_precedence_nonempty :
    ∀ (st : TaggerState) (w t : String), lookupAssoc st.tagdict w = some t → t ≠ "" →
    ∀ (words : List String) (ps : List (String × String)), tagWords st words = .ok ps →
    ∀ k, words.get? k = some w → ps.get? k = some (w, t) := by
  intro st w t hw ht words ps h k hk
  unfold tagWords at h
  split at h
  · exact absurd h (by simp)
  · split at h
    · exact absurd h (by simp)
    · injection h with h
      subst h
      rename_i ts hloop
      exact zip_get?_of words ts k w t hk (tagLoop_dict_hit st _ w t hw ht words _ _ _ ts hloop k hk)

/-- Witness for `tagdict_precedence_nonempty` on a concrete tagger whose
dictionary maps `"a"` to `"DET"`. -/
theorem tagdict_precedence_nonempty_witness :
    lookupAssoc dictTagger.tagdict "a" = some "DET" ∧ ("DET" : String) ≠ ""
    ∧ tagWords dictTagger ["a"] = .ok [("a", "DET")]
    ∧ ([("a", "DET")] : List (String × String)).get? 0 = some ("a", "DET") :=
  ⟨by decide, by decide, by decide,
    tagdict_precedence_nonempty dictTagger "a" "DET" (by decide) (by decide)
      ["a"] [("a", "DET")] (by decide) 0 (by decide)⟩

/-- C3 (amended): the word loop pairs every input word, in order, with
the tag assigned to it (`zip(words, tags)` with one tag appended per
word), so the output words equal the input words; and with
`tokenize=False` the input is the whitespace-joined string, on which the
trained end-to-end example returns the expected pairs. -/
theorem tag_words_and_end_to_end :
    (∀ (st : TaggerState) (words : List String) (ps : List (String × String)),
        tagWords st words = .ok ps → ps.map Prod.fst = words)
    ∧ (train (initState [] []) exampleCorpus 5 idShuffle).map
        (fun st => tag st (.str "The dog runs"))
        = .ok (.ok [("The", "DET"), ("dog", "NOUN"), ("runs", "VERB")]) := by
  constructor
  · intro st words ps h
    unfold tagWords at h
    split at h
    · exact absurd h (by simp)
    · split at h
      · exact absurd h (by simp)
      · injection h with h
        subst h
        rename_i ts hloop
        exact List.map_fst_zip words ts (le_of_eq (tagLoop_length st _ words _ _ _ ts hloop).symm)
  · decide

/-- Witness for `tag_words_and_end_to_end` on the decoded pair list of
the trained end-to-end tagger. -/
theorem tag_words_and_end_to_end_witness :
    tagWords dictTagger ["b", "a"] = .ok [("b", "X"), ("a", "DET")]
    ∧ ([("b", "X"), ("a", "DET")] : List (String × String)).map Prod.fst = ["b", "a"] :=
  ⟨by decide,
    tag_words_and_end_to_end.1 dictTagger ["b", "a"] [("b", "X"), ("a", "DET")] (by decide)⟩

theorem pyListGetInt_ok_exists {α : Type} (l : List α) (k : Int) (h0 : 0 ≤ k)
    (h1 : k < l.length) : ∃ a, pyListGetInt l k = .ok a := by
  unfold pyListGetInt
  have hj : (if k < 0 then k + (l.length : Int) else k) = k := if_neg (by omega)
  simp only [hj]
  rw [dif_pos ⟨h0, by omega⟩]
  exact ⟨_, rfl⟩

/-- Feature extraction succeeds on a non-empty word at a valid context
position. -/
theorem getFeatures_isOk (U T : List String) (i : ℕ) (word : String) (ctx : List String)
    (prev prev2 : String) (hw : word ≠ "") (hi : 2 ≤ i) (hub : i + 2 < ctx.length) :
    (getFeatures U T (i : Int) word ctx prev prev2).isOk = true := by
  obtain ⟨l⟩ := word
  match l with
  | [] => exact absurd rfl hw
  | c :: t =>
    obtain ⟨ci, hci⟩ := pyListGetInt_ok_exists ctx (i : Int) (by omega) (by omega)
    obtain ⟨cm1, hcm1⟩ := pyListGetInt_ok_exists ctx ((i : Int) - 1) (by omega) (by omega)
    obtain ⟨cm2, hcm2⟩ := pyListGetInt_ok_exists ctx ((i : Int) - 2) (by omega) (by omega)
    obtain ⟨cp1, hcp1⟩ := pyListGetInt_ok_exists ctx ((i : Int) + 1) (by omega) (by omega)
    obtain ⟨cp2, hcp2⟩ := pyListGetInt_ok_exists ctx ((i : Int) + 2) (by omega) (by omega)
    unfold getFeatures
    rw [pyStrIndex_cons, hci, hcm1, hcm2, hcp1, hcp2]
    rfl

/-- C10: normalization and feature extraction succeed on every non-empty
word (at any valid context position), while the empty string drives the
`word[0]` accesses out of bounds: `_normalize` and `_get_features` raise
`IndexError` on it, and training on a corpus containing an empty word
fails the same way. -/
theorem nonempty_word_precondition :
    (∀ (cs : Bool) (w : String), w ≠ "" → (normalize cs w).isOk = true)
    ∧ (∀ (U T : List String) (i : ℕ) (word : String) (ctx : List String) (prev prev2 : String),
        word ≠ "" → 2 ≤ i → i + 2 < ctx.length →
        (getFeatures U T (i : Int) word ctx prev prev2).isOk = true)
    ∧ normalize false "" = .error .indexError
    ∧ getFeatures [] [] 2 "" (START ++ ["x"] ++ END) "-START-" "-START2-" = .error .indexError
    ∧ train (initState [] []) [([""], ["X"])] 1 idShuffle = .error .indexError := by
  refine ⟨?_, getFeatures_isOk, by decide, by decide, by decide⟩
  intro cs w h
  obtain ⟨l⟩ := w
  match l with
  | [] => exact absurd rfl h
  | c :: t =>
    simp only [normalize, pyStrIndex_cons]
    split_ifs <;> rfl

/-- Witness for `nonempty_word_precondition` at a concrete word and a
concrete feature-extraction call. -/
theorem nonempty_word_precondition_witness :
    ("x" : String) ≠ "" ∧ (normalize false "x").isOk = true
    ∧ (2 : ℕ) ≤ 2 ∧ 2 + 2 < (START ++ ["x"] ++ END).length
    ∧ (getFeatures [] [] ((2 : ℕ) : Int) "x" (START ++ ["x"] ++ END) "-START-" "-START2-").isOk
        = true :=
  ⟨by decide, nonempty_word_precondition.1 false "x" (by decide), by decide, by decide,
    nonempty_word_precondition.2.1 [] [] 2 "x" (START ++ ["x"] ++ END) "-START-" "-START2-"
      (by decide) (by decide) (by decide)⟩

theorem lookupAssoc_setAssoc_self {α β : Type} [DecidableEq α] (l : List (α × β)) (k : α)
    (v : β) : lookupAssoc (setAssoc l k v) k = some v := by
  induction l with
  | nil => simp [setAssoc, lookupAssoc]
  | cons e rest ih =>
    obtain ⟨k1, v1⟩ := e
    by_cases h : k = k1
    · simp [setAssoc, h, lookupAssoc]
    · simp [setAssoc, h, lookupAssoc, ih]

theorem lookupAssoc_setAssoc_ne {α β : Type} [DecidableEq α] (l : List (α × β)) (k : α)
    (v : β) (k2 : α) (h : k2 ≠ k) : lookupAssoc (setAssoc l k v) k2 = lookupAssoc l k2 := by
  induction l with
  | nil => simp [setAssoc, lookupAssoc, h]
  | cons e rest ih =>
    obtain ⟨k1, v1⟩ := e
    by_cases h1 : k = k1
    · subst h1
      simp [setAssoc, lookupAssoc, h]
    · simp only [setAssoc, if_neg h1, lookupAssoc]
      by_cases h2 : k2 = k1 <;> simp [h2, ih]

theorem lookupAssoc_eq_none_of_not_mem {α β : Type} [DecidableEq α] (l : List (α × β))
    (k : α) (h : k ∉ l.map Prod.fst) : lookupAssoc l k = none := by
  induction l with
  | nil => rfl
  | cons e rest ih =>
    simp only [List.map_cons, List.mem_cons] at h
    push_neg at h
    simp [lookupAssoc, h.1, ih h.2]

theorem mem_of_lookupAssoc {α β : Type} [DecidableEq α] (l : List (α × β)) (k : α) (v : β)
    (h : lookupAssoc l k = some v) : (k, v) ∈ l := by
  induction l with
  | nil => simp [lookupAssoc] at h
  | cons e rest ih =>
    obtain ⟨k1, v1⟩ := e
    by_cases h1 : k = k1
    · subst h1
      simp only [lookupAssoc, if_pos rfl] at h
      injection h with h
      subst h
      exact List.mem_cons_self _ _
    · simp only [lookupAssoc, if_neg h1] at h
      exact List.mem_cons_of_mem _ (ih h)

theorem lookupAssoc_of_mem_nodup {α β : Type} [DecidableEq α] (l : List (α × β)) (k : α)
    (v : β) (hm : (k, v) ∈ l) (hn : (l.map Prod.fst).Nodup) : lookupAssoc l k = some v := by
  induction l with
  | nil => simp at hm
  | cons e rest ih =>
    obtain ⟨k1, v1⟩ := e
    simp only [List.map_cons, List.nodup_cons] at hn
    rcases List.mem_cons.mp hm with h | h
    · injection h with h1 h2
      subst h1; subst h2
      simp [lookupAssoc]
    · have hk : k ≠ k1 := by
        rintro rfl
        exact hn.1 (List.mem_map.mpr ⟨(k, v), h, rfl⟩)
      simp only [lookupAssoc, if_neg hk]
      exact ih h hn.2

theorem mem_setAssoc {α β : Type} [DecidableEq α] (l : List (α × β)) (k : α) (v : β) :
    ∀ e ∈ setAssoc l k v, e ∈ l ∨ e = (k, v) := by
  induction l with
  | nil => simp [setAssoc]
  | cons e1 rest ih =>
    obtain ⟨k1, v1⟩ := e1
    intro e he
    by_cases h : k = k1
    · simp only [setAssoc, if_pos h] at he
      rcases List.mem_cons.mp he with h2 | h2
      · right; exact h2
      · left; exact List.mem_cons_of_mem _ h2
    · simp only [setAssoc, if_neg h] at he
      rcases List.mem_cons.mp he with h2 | h2
      · left; exact h2 ▸ List.mem_cons_self _ _
      · rcases ih e h2 with h3 | h3
        · left; exact List.mem_cons_of_mem _ h3
        · right; exact h3

theorem setAssoc_keys {α β : Type} [DecidableEq α] (l : List (α × β)) (k : α) (v : β) :
    (setAssoc l k v).map Prod.fst =
      if k ∈ l.map Prod.fst then l.map Prod.fst else l.map Prod.fst ++ [k] := by
  induction l with
  | nil => simp [setAssoc]
  | cons e rest ih =>
    obtain ⟨k1, v1⟩ := e
    by_cases h : k = k1
    · subst h
      simp [setAssoc]
    · simp only [setAssoc, if_neg h, List.map_cons, ih]
      by_cases h2 : k ∈ rest.map Prod.fst <;>
        simp [h2, List.mem_cons, h]

theorem nodup_keys_setAssoc {α β : Type} [DecidableEq α] (l : List (α × β)) (k : α) (v : β)
    (h : (l.map Prod.fst).Nodup) : ((setAssoc l k v).map Prod.fst).Nodup := by
  rw [setAssoc_keys]
  split
  · exact h
  · rename_i hnot
    simp [List.nodup_append, h, hnot]

theorem setAssoc_ne_nil {α β : Type} [DecidableEq α] (l : List (α × β)) (k : α) (v : β) :
    setAssoc l k v ≠ [] := by
  cases l with
  | nil => simp [setAssoc]
  | cons e rest =>
    obtain ⟨k1, v1⟩ := e
    by_cases h : k = k1 <;> simp [setAssoc, h]

/-- Well-formedness of the nested count table: outer keys are distinct,
and every per-word table has distinct keys, is non-empty, and stores only
positive counts. -/
def CountsWF (counts : List (String × List (String × ℕ))) : Prop :=
  (counts.map Prod.fst).Nodup
  ∧ ∀ e ∈ counts, (e.2.map Prod.fst).Nodup ∧ e.2 ≠ [] ∧ ∀ p ∈ e.2, 1 ≤ p.2

theorem countsWF_bump (counts : List (String × List (String × ℕ))) (w t : String)
    (h : CountsWF counts) : CountsWF (bump counts w t) := by
  obtain ⟨houter, hinner⟩ := h
  have htf : ((((lookupAssoc counts w).getD []).map Prod.fst).Nodup)
      ∧ ∀ p ∈ (lookupAssoc counts w).getD [], 1 ≤ p.2 := by
    cases hl : lookupAssoc counts w with
    | none => simp
    | some tf =>
      have := hinner (w, tf) (mem_of_lookupAssoc _ _ _ hl)
      exact ⟨this.1, this.2.2⟩
  constructor
  · exact nodup_keys_setAssoc _ _ _ houter
  · intro e he
    rcases mem_setAssoc _ _ _ e he with hm | hm
    · exact hinner e hm
    · subst hm
      refine ⟨nodup_keys_setAssoc _ _ _ htf.1, setAssoc_ne_nil _ _ _, ?_⟩
      intro p hp
      rcases mem_setAssoc _ _ _ p hp with hm2 | hm2
      · exact htf.2 p hm2
      · subst hm2
        omega

theorem countsWF_bumpList (l : List (String × String)) :
    ∀ counts, CountsWF counts → CountsWF (bumpList counts l) := by
  induction l with
  | nil => intro counts h; exact h
  | cons p l ih =>
    intro counts h
    exact ih _ (countsWF_bump counts p.1 p.2 h)

theorem countsWF_buildCounts (S : List Sentence) : CountsWF (buildCounts S) := by
  have base : CountsWF [] := ⟨List.nodup_nil, by simp⟩
  have : ∀ counts, CountsWF counts →
      CountsWF (S.foldl (fun c s => bumpList c (s.1.zip s.2)) counts) := by
    induction S with
    | nil => intro counts h; exact h
    | cons s S ih =>
      intro counts h
      exact ih _ (countsWF_bumpList _ counts h)
  exact this [] base

theorem sumSnd_nil : sumSnd [] = 0 := rfl

theorem sumSnd_cons (p : String × ℕ) (tf : List (String × ℕ)) :
    sumSnd (p :: tf) = p.2 + sumSnd tf := by
  simp [sumSnd]

theorem sumSnd_bump (tf : List (String × ℕ)) (t : String) :
    sumSnd (setAssoc tf t ((lookupAssoc tf t).getD 0 + 1)) = sumSnd tf + 1 := by
  induction tf with
  | nil => simp [setAssoc, lookupAssoc, sumSnd]
  | cons e rest ih =>
    obtain ⟨k, v⟩ := e
    by_cases h : t = k
    · subst h
      have h1 : lookupAssoc ((t, v) :: rest) t = some v := by simp [lookupAssoc]
      have h2 : setAssoc ((t, v) :: rest) t (v + 1) = (t, v + 1) :: rest := by simp [setAssoc]
      rw [h1]
      simp only [Option.getD_some]
      rw [h2, sumSnd_cons, sumSnd_cons]
      omega
    · have h1 : lookupAssoc ((k, v) :: rest) t = lookupAssoc rest t := by
        simp [lookupAssoc, h]
      have h2 : ∀ x, setAssoc ((k, v) :: rest) t x = (k, v) :: setAssoc rest t x := by
        intro x
        simp [setAssoc, h]
      rw [h1, h2, sumSnd_cons, sumSnd_cons, ih]
      omega

theorem getCount_bump (counts : List (String × List (String × ℕ))) (w0 t0 w t : String) :
    getCount (bump counts w0 t0) w t
      = getCount counts w t + (if w = w0 ∧ t = t0 then 1 else 0) := by
  unfold bump getCount
  by_cases hw : w = w0
  · subst hw
    rw [lookupAssoc_setAssoc_self]
    simp only [Option.getD_some]
    by_cases ht : t = t0
    · subst ht
      rw [lookupAssoc_setAssoc_self]
      simp
    · rw [lookupAssoc_setAssoc_ne _ _ _ _ ht]
      simp [ht]
  · rw [lookupAssoc_setAssoc_ne _ _ _ _ hw]
    simp [hw]

theorem getTotal_bump (counts : List (String × List (String × ℕ))) (w0 t0 w : String) :
    getTotal (bump counts w0 t0) w = getTotal counts w + (if w = w0 then 1 else 0) := by
  unfold bump getTotal
  by_cases hw : w = w0
  · subst hw
    rw [lookupAssoc_setAssoc_self]
    simp only [Option.getD_some, if_pos rfl]
    exact sumSnd_bump _ _
  · rw [lookupAssoc_setAssoc_ne _ _ _ _ hw]
    simp [hw]

theorem getCount_bumpList (l : List (String × String)) :
    ∀ (counts : List (String × List (String × ℕ))) (w t : String),
      getCount (bumpList counts l) w t = getCount counts w t + l.count (w, t) := by
  induction l with
  | nil => intro counts w t; simp [bumpList]
  | cons p l ih =>
    intro counts w t
    have hstep : bumpList counts (p :: l) = bumpList (bump counts p.1 p.2) l := rfl
    rw [hstep, ih, getCount_bump, List.count_cons]
    simp only [beq_iff_eq, Prod.ext_iff]
    have hsw : (p.1 = w ∧ p.2 = t) ↔ (w = p.1 ∧ t = p.2) := by
      constructor <;> rintro ⟨x, y⟩ <;> exact ⟨x.symm, y.symm⟩
    simp only [hsw]
    split_ifs <;> omega

theorem getTotal_bumpList (l : List (String × String)) :
    ∀ (counts : List (String × List (String × ℕ))) (w : String),
      getTotal (bumpList counts l) w = getTotal counts w + (l.map Prod.fst).count w := by
  induction l with
  | nil => intro counts w; simp [bumpList]
  | cons p l ih =>
    intro counts w
    have hstep : bumpList counts (p :: l) = bumpList (bump counts p.1 p.2) l := rfl
    rw [hstep, ih, getTotal_bump, List.map_cons, List.count_cons]
    simp only [beq_iff_eq]
    have hsw : (p.1 = w) ↔ (w = p.1) := eq_comm
    simp only [hsw]
    split_ifs <;> omega

theorem getCount_buildCounts (S : List Sentence) (w t : String) :
    getCount (buildCounts S) w t = corpusCount S w t := by
  have main : ∀ counts, getCount (S.foldl (fun c s => bumpList c (s.1.zip s.2)) counts) w t
      = getCount counts w t + corpusCount S w t := by
    induction S with
    | nil => intro counts; simp [corpusCount]
    | cons s S ih =>
      intro counts
      simp only [List.foldl_cons, ih, getCount_bumpList, corpusCount, List.map_cons,
        List.sum_cons]
      omega
  have h0 : getCount [] w t = 0 := rfl
  rw [buildCounts, main, h0, Nat.zero_add]

theorem getTotal_buildCounts (S : List Sentence) (w : String) :
    getTotal (buildCounts S) w = corpusTotal S w := by
  have main : ∀ counts, getTotal (S.foldl (fun c s => bumpList c (s.1.zip s.2)) counts) w
      = getTotal counts w + corpusTotal S w := by
    induction S with
    | nil => intro counts; simp [corpusTotal]
    | cons s S ih =>
      intro counts
      simp only [List.foldl_cons, ih, getTotal_bumpList, corpusTotal, List.map_cons,
        List.sum_cons]
      omega
  have h0 : getTotal [] w = 0 := rfl
  rw [buildCounts, main, h0, Nat.zero_add]

/-- The running fold of `pickN` from an arbitrary accumulator: the result
either comes from the list or is the initial accumulator, its mode bounds
the initial mode and every count in the list, and its total adds the list
counts to the initial total. -/
theorem pickN_fold (tf : List (String × ℕ)) :
    ∀ (inc : String) (m n : ℕ),
      (((tf.foldl (fun acc p =>
            if p.2 ≥ acc.2.1 then (p.1, p.2, acc.2.2 + p.2)
            else (acc.1, acc.2.1, acc.2.2 + p.2)) (inc, m, n)).1,
        (tf.foldl (fun acc p =>
            if p.2 ≥ acc.2.1 then (p.1, p.2, acc.2.2 + p.2)
            else (acc.1, acc.2.1, acc.2.2 + p.2)) (inc, m, n)).2.1) ∈ tf
        ∨ ((tf.foldl (fun acc p =>
            if p.2 ≥ acc.2.1 then (p.1, p.2, acc.2.2 + p.2)
            else (acc.1, acc.2.1, acc.2.2 + p.2)) (inc, m, n)).1 = inc
          ∧ (tf.foldl (fun acc p =>
            if p.2 ≥ acc.2.1 then (p.1, p.2, acc.2.2 + p.2)
            else (acc.1, acc.2.1, acc.2.2 + p.2)) (inc, m, n)).2.1 = m))
      ∧ m ≤ (tf.foldl (fun acc p =>
            if p.2 ≥ acc.2.1 then (p.1, p.2, acc.2.2 + p.2)
            else (acc.1, acc.2.1, acc.2.2 + p.2)) (inc, m, n)).2.1
      ∧ (∀ p ∈ tf, p.2 ≤ (tf.foldl (fun acc p =>
            if p.2 ≥ acc.2.1 then (p.1, p.2, acc.2.2 + p.2)
            else (acc.1, acc.2.1, acc.2.2 + p.2)) (inc, m, n)).2.1)
      ∧ (tf.foldl (fun acc p =>
            if p.2 ≥ acc.2.1 then (p.1, p.2, acc.2.2 + p.2)
            else (acc.1, acc.2.1, acc.2.2 + p.2)) (inc, m, n)).2.2 = n + sumSnd tf := by
  induction tf with
  | nil =>
    intro inc m n
    simp [sumSnd]
  | cons p tf ih =>
    intro inc m n
    obtain ⟨p1, p2⟩ := p
    simp only [List.foldl_cons]
    by_cases hge : p2 ≥ m
    · simp only [if_pos hge]
      obtain ⟨hmem, hm, hall, hn⟩ := ih p1 p2 (n + p2)
      refine ⟨?_, le_trans hge hm, ?_, ?_⟩
      · rcases hmem with h | h
        · exact Or.inl (List.mem_cons_of_mem _ h)
        · exact Or.inl (by rw [h.1, h.2]; exact List.mem_cons_self _ _)
      · intro q hq
        rcases List.mem_cons.mp hq with h | h
        · subst h
          exact hm
        · exact hall q h
      · rw [hn, sumSnd_cons]
        omega
    · simp only [if_neg hge]
      obtain ⟨hmem, hm, hall, hn⟩ := ih inc m (n + p2)
      refine ⟨?_, hm, ?_, ?_⟩
      · rcases hmem with h | h
        · exact Or.inl (List.mem_cons_of_mem _ h)
        · exact Or.inr h
      · intro q hq
        rcases List.mem_cons.mp hq with h | h
        · subst h
          omega
        · exact hall q h
      · rw [hn, sumSnd_cons]
        omega

/-- On a non-empty table of positive counts, `pickN` returns an entry of
the table whose count is the maximum (the mode) and the exact sum of the
counts (the total `n`). -/
theorem pickN_spec (tf : List (String × ℕ)) (hne : tf ≠ []) (hpos : ∀ p ∈ tf, 1 ≤ p.2) :
    ((pickN tf).1, (pickN tf).2.1) ∈ tf
    ∧ (∀ p ∈ tf, p.2 ≤ (pickN tf).2.1)
    ∧ (pickN tf).2.2 = sumSnd tf := by
  obtain ⟨hmem, _, hall, hn⟩ := pickN_fold tf "" 0 0
  have hdef : pickN tf = tf.foldl (fun acc p =>
      if p.2 ≥ acc.2.1 then (p.1, p.2, acc.2.2 + p.2)
      else (acc.1, acc.2.1, acc.2.2 + p.2)) ("", 0, 0) := rfl
  rw [hdef]
  refine ⟨?_, hall, by rw [hn, Nat.zero_add]⟩
  rcases hmem with h | h
  · exact h
  · exfalso
    cases tf with
    | nil => exact hne rfl
    | cons q tfr =>
      have h1 := hall q (List.mem_cons_self _ _)
      have h2 := hpos q (List.mem_cons_self _ _)
      rw [h.2] at h1
      omega

/-- Characterization of the threshold loop of `_make_tagdict` over a
count table with distinct word keys. -/
theorem lookup_tagdictEntries :
    ∀ (counts : List (String × List (String × ℕ))) (td0 : List (String × String)) (w : String),
      ((counts.map Prod.fst).Nodup) →
      lookupAssoc (tagdictEntries td0 counts) w =
        (match lookupAssoc counts w with
         | none => lookupAssoc td0 w
         | some tf =>
           if 100 ≤ (pickN tf).2.2 ∧ 99 * (pickN tf).2.2 ≤ 100 * (pickN tf).2.1
           then some (pickN tf).1 else lookupAssoc td0 w) := by
  intro counts
  induction counts with
  | nil => intro td0 w h; rfl
  | cons e rest ih =>
    intro td0 w hnd
    obtain ⟨w0, tf0⟩ := e
    simp only [List.map_cons, List.nodup_cons] at hnd
    have hstep : tagdictEntries td0 ((w0, tf0) :: rest)
        = tagdictEntries
            (if 100 ≤ (pickN tf0).2.2 ∧ 99 * (pickN tf0).2.2 ≤ 100 * (pickN tf0).2.1
             then setAssoc td0 w0 (pickN tf0).1 else td0) rest := rfl
    rw [hstep, ih _ w hnd.2]
    by_cases hww : w = w0
    · subst hww
      have hrest : lookupAssoc rest w = none := by
        apply lookupAssoc_eq_none_of_not_mem
        exact fun hmm => hnd.1 hmm
      have hcons : lookupAssoc ((w, tf0) :: rest) w = some tf0 := by simp [lookupAssoc]
      rw [hrest, hcons]
      by_cases hc : 100 ≤ (pickN tf0).2.2 ∧ 99 * (pickN tf0).2.2 ≤ 100 * (pickN tf0).2.1
      · simp only [if_pos hc, lookupAssoc_setAssoc_self]
      · simp only [if_neg hc]
    · have hcons : lookupAssoc ((w0, tf0) :: rest) w = lookupAssoc rest w := by
        simp [lookupAssoc, hww]
      rw [hcons]
      have htd : lookupAssoc
          (if 100 ≤ (pickN tf0).2.2 ∧ 99 * (pickN tf0).2.2 ≤ 100 * (pickN tf0).2.1
           then setAssoc td0 w0 (pickN tf0).1 else td0) w = lookupAssoc td0 w := by
        split
        · exact lookupAssoc_setAssoc_ne _ _ _ _ hww
        · rfl
      cases hlr : lookupAssoc rest w <;> simp only [htd]

/-- C5: the tag dictionary built by `_make_tagdict` (on a tagger with an
empty dictionary) stores an entry for the raw word `w` exactly when its
total corpus occurrence count `n` satisfies `n >= 100` and its
dominant-tag count `mode` satisfies `mode / n >= 0.99`; the stored tag is
a dominant tag (its count bounds every tag's count for `w`), and every
other word is absent. -/
theorem tagdict_characterization :
    ∀ (st : TaggerState) (S : List Sentence), st.tagdict = [] → ∀ w : String,
      (∀ t : String, lookupAssoc (makeTagdict st S).tagdict w = some t →
        100 ≤ corpusTotal S w
        ∧ (99 : ℚ) / 100 ≤ (corpusCount S w t : ℚ) / (corpusTotal S w : ℚ)
        ∧ ∀ t2 : String, corpusCount S w t2 ≤ corpusCount S w t)
      ∧ (∀ t : String, (∀ t2 : String, corpusCount S w t2 ≤ corpusCount S w t) →
          100 ≤ corpusTotal S w →
          (99 : ℚ) / 100 ≤ (corpusCount S w t : ℚ) / (corpusTotal S w : ℚ) →
          ∃ t2 : String, lookupAssoc (makeTagdict st S).tagdict w = some t2) := by
  intro st S hst w
  have htd : (makeTagdict st S).tagdict = tagdictEntries [] (buildCounts S) := by
    simp [makeTagdict, hst]
  have hwf := countsWF_buildCounts S
  have hchar := lookup_tagdictEntries (buildCounts S) [] w hwf.1
  rw [htd]
  constructor
  · intro t hl
    rw [hchar] at hl
    cases hbc : lookupAssoc (buildCounts S) w with
    | none => rw [hbc] at hl; simp [lookupAssoc] at hl
    | some tf =>
      rw [hbc] at hl
      simp only [] at hl
      by_cases hc : 100 ≤ (pickN tf).2.2 ∧ 99 * (pickN tf).2.2 ≤ 100 * (pickN tf).2.1
      case neg => rw [if_neg hc] at hl; simp [lookupAssoc] at hl
      case pos =>
        rw [if_pos hc] at hl
        injection hl with hl
        subst hl
        obtain ⟨hnodin, hnemp, hposin⟩ := hwf.2 (w, tf) (mem_of_lookupAssoc _ _ _ hbc)
        obtain ⟨hmem, hall, hsum⟩ := pickN_spec tf hnemp hposin
        have hcount : ∀ t2, corpusCount S w t2 = (lookupAssoc tf t2).getD 0 := by
          intro t2
          rw [← getCount_buildCounts]
          unfold getCount
          rw [hbc]
          rfl
        have htotal : corpusTotal S w = sumSnd tf := by
          rw [← getTotal_buildCounts]
          unfold getTotal
          rw [hbc]
          rfl
        have hmode : corpusCount S w (pickN tf).1 = (pickN tf).2.1 := by
          rw [hcount, lookupAssoc_of_mem_nodup tf _ _ hmem hnodin]
          rfl
        refine ⟨?_, ?_, ?_⟩
        · rw [htotal, ← hsum]
          exact hc.1
        · rw [hmode, htotal, ← hsum]
          have hn : 0 < (pickN tf).2.2 := by omega
          rw [div_le_div_iff₀ (by norm_num) (by exact_mod_cast hn)]
          exact_mod_cast (by omega : 99 * (pickN tf).2.2 ≤ (pickN tf).2.1 * 100)
        · intro t2
          rw [hmode, hcount t2]
          cases hlt : lookupAssoc tf t2 with
          | none => simp
          | some c =>
            simp only [Option.getD_some]
            exact hall (t2, c) (mem_of_lookupAssoc _ _ _ hlt)
  · intro t hdom h100 hratio
    cases hbc : lookupAssoc (buildCounts S) w with
    | none =>
      exfalso
      have h0 : corpusTotal S w = 0 := by
        rw [← getTotal_buildCounts]
        unfold getTotal
        rw [hbc]
        rfl
      omega
    | some tf =>
      obtain ⟨hnodin, hnemp, hposin⟩ := hwf.2 (w, tf) (mem_of_lookupAssoc _ _ _ hbc)
      obtain ⟨hmem, hall, hsum⟩ := pickN_spec tf hnemp hposin
      have hcount : ∀ t2, corpusCount S w t2 = (lookupAssoc tf t2).getD 0 := by
        intro t2
        rw [← getCount_buildCounts]
        unfold getCount
        rw [hbc]
        rfl
      have htotal : corpusTotal S w = sumSnd tf := by
        rw [← getTotal_buildCounts]
        unfold getTotal
        rw [hbc]
        rfl
      have hmode : corpusCount S w (pickN tf).1 = (pickN tf).2.1 := by
        rw [hcount, lookupAssoc_of_mem_nodup tf _ _ hmem hnodin]
        rfl
      have h1 : corpusCount S w t ≤ (pickN tf).2.1 := by
        rw [hcount]
        cases hlt : lookupAssoc tf t with
        | none => simp
        | some c =>
          simp only [Option.getD_some]
          exact hall (t, c) (mem_of_lookupAssoc _ _ _ hlt)
      have h2 : (pickN tf).2.1 ≤ corpusCount S w t := by
        rw [← hmode]
        exact hdom (pickN tf).1
      have hcond : 100 ≤ (pickN tf).2.2 ∧ 99 * (pickN tf).2.2 ≤ 100 * (pickN tf).2.1 := by
        constructor
        · rw [hsum, ← htotal]
          exact h100
        · have hn : 0 < corpusTotal S w := by omega
          rw [div_le_div_iff₀ (by norm_num) (by exact_mod_cast hn)] at hratio
          have hq : 99 * corpusTotal S w ≤ corpusCount S w t * 100 := by exact_mod_cast hratio
          rw [hsum, ← htotal]
          omega
      rw [hchar, hbc]
      simp only []
      rw [if_pos hcond]
      exact ⟨_, rfl⟩

/-- Witness for `tagdict_characterization` on the concrete repeated
corpus, at the stored entry for `"dog"`. -/
theorem tagdict_characterization_witness :
    (initState [] []).tagdict = []
    ∧ lookupAssoc (makeTagdict (initState [] []) exampleCorpus).tagdict "dog" = some "NOUN"
    ∧ (100 ≤ corpusTotal exampleCorpus "dog"
       ∧ (99 : ℚ) / 100
           ≤ (corpusCount exampleCorpus "dog" "NOUN" : ℚ) / (corpusTotal exampleCorpus "dog" : ℚ)
       ∧ ∀ t2 : String, corpusCount exampleCorpus "dog" t2 ≤ corpusCount exampleCorpus "dog" "NOUN") :=
  ⟨rfl, by decide,
    (tagdict_characterization (initState [] []) exampleCorpus rfl "dog").1 "NOUN" (by decide)⟩

end Taggers
